import Mathlib

/-!
Verification of the blog post-catalog maintenance scripts
(`sort_posts.py` and `sync_posts.py`).

`sort_posts.py` reads the catalog document, appends each hardcoded new
post whose slug is not already present, sorts all posts by date
descending with Python's stable `list.sort` keyed on
`datetime.strptime(date, "%Y-%m-%d")`, and writes the document back.
`sync_posts.py` fetches the remote catalog and overwrites the local file.

The embedding below models the merge as a pure function from the existing
post list and the candidate list to an optional result (`none` models an
uncaught exception, which aborts the script before the write-back), and
models one run of the sync script as a function of the fetch outcome.
-/

/-- A blog post record. The scripts read only `slug` and `date`;
all other fields (title, description, tags, ...) are carried opaquely
in `rest` and never inspected. -/
structure Post where
  slug : String
  date : String
  rest : List (String × String)
deriving DecidableEq, Repr

/-- A parsed calendar date, the comparable content of the `datetime`
value produced by `datetime.strptime(s, "%Y-%m-%d")` (the time part is
always midnight, so comparison is lexicographic on year, month, day). -/
structure Date where
  year : Nat
  month : Nat
  day : Nat
deriving DecidableEq, Repr

/-- Split the longest leading run of ASCII digits off a character list. -/
def takeDigits : List Char → List Char × List Char
  | [] => ([], [])
  | c :: cs =>
    if c.isDigit then
      let p := takeDigits cs
      (c :: p.1, p.2)
    else ([], c :: cs)

/-- Numeric value of a digit run (most significant first). -/
def digitsVal (ds : List Char) : Nat :=
  ds.foldl (fun a c => a * 10 + (c.toNat - 48)) 0

/-- Gregorian leap-year test, as in Python's `datetime`. -/
def isLeap (y : Nat) : Bool :=
  y % 4 == 0 && (y % 100 != 0 || y % 400 == 0)

/-- Number of days in a month, as validated by `datetime`. -/
def daysInMonth (y m : Nat) : Nat :=
  if m = 2 then (if isLeap y then 29 else 28)
  else if m = 4 ∨ m = 6 ∨ m = 9 ∨ m = 11 then 30
  else 31

/-- Model of `datetime.strptime(s, "%Y-%m-%d")` on a character list
(digits restricted to ASCII). The format regex demands exactly four year
digits, a literal dash, one or two month digits (value 1..12), a dash,
one or two day digits (value 1..31), and full consumption of the input;
`datetime` construction then requires year at least 1 and a day that
exists in the given month and year. Any failure raises `ValueError`,
modelled as `none`. -/
def parseDateChars (cs : List Char) : Option Date :=
  let py := takeDigits cs
  match py.2 with
  | '-' :: r2 =>
    let pm := takeDigits r2
    match pm.2 with
    | '-' :: r4 =>
      let pd := takeDigits r4
      if py.1.length = 4 ∧ (pm.1.length = 1 ∨ pm.1.length = 2) ∧
          (pd.1.length = 1 ∨ pd.1.length = 2) ∧ pd.2 = [] then
        let y := digitsVal py.1
        let m := digitsVal pm.1
        let d := digitsVal pd.1
        if 1 ≤ y ∧ 1 ≤ m ∧ m ≤ 12 ∧ 1 ≤ d ∧ d ≤ daysInMonth y m then
          some ⟨y, m, d⟩
        else none
      else none
    | _ => none
  | _ => none

/-- Model of `datetime.strptime(s, "%Y-%m-%d")` on a string. -/
def parseDate (s : String) : Option Date :=
  parseDateChars s.data

/-- Comparison of parsed dates: lexicographic on (year, month, day),
matching `datetime` comparison. -/
def Date.le (a b : Date) : Prop :=
  a.year < b.year ∨
    (a.year = b.year ∧
      (a.month < b.month ∨ (a.month = b.month ∧ a.day ≤ b.day)))

instance : DecidableRel Date.le := fun a b => by
  unfold Date.le
  exact inferInstance

instance : IsTotal Date Date.le :=
  ⟨by intro a b; unfold Date.le; omega⟩

instance : IsTrans Date Date.le :=
  ⟨by intro a b c; unfold Date.le; omega⟩

/-- The sort relation used on decorated (key, value) pairs:
`x` may come before `y` when the date key of `y` is at most the date key
of `x`. This is the non-strict order realised by
`list.sort(key=..., reverse=True)` (descending, stable). -/
def pairDesc (x y : Date × Post) : Prop := Date.le y.1 x.1

instance : DecidableRel pairDesc := fun x y =>
  (inferInstance : Decidable (Date.le y.1 x.1))

instance : IsTotal (Date × Post) pairDesc :=
  ⟨fun x y => (IsTotal.total (r := Date.le) x.1 y.1).symm⟩

instance : IsTrans (Date × Post) pairDesc :=
  ⟨fun _ _ _ hxy hyz => IsTrans.trans (r := Date.le) _ _ _ hyz hxy⟩

/-- Compute the sort key of every element, left to right, as Python's
`list.sort(key=...)` does before it reorders anything: the first
unparsable date raises and aborts the sort with the list untouched. -/
def decorate : List Post → Option (List (Date × Post))
  | [] => some []
  | p :: ps =>
    match parseDate p.date with
    | none => none
    | some d => (decorate ps).map (fun t => (d, p) :: t)

/-- Model of `posts.sort(key=lambda x: datetime.strptime(x['date'], '%Y-%m-%d'), reverse=True)`:
decorate with parsed keys, stable-sort descending by key, undecorate.
`none` models the `ValueError` raised on an unparsable date. -/
def sortPosts (l : List Post) : Option (List Post) :=
  (decorate l).map (fun pairs => (pairs.insertionSort pairDesc).map Prod.snd)

/-- One iteration of the merge loop of `sort_posts.py`: skip the candidate
when some post already in the working list has the same slug, otherwise
append it and increment the counter. -/
def mergeStep (acc : List Post × Nat) (post : Post) : List Post × Nat :=
  if acc.1.any (fun p => p.slug == post.slug) then acc
  else (acc.1 ++ [post], acc.2 + 1)

/-- The merge loop of `sort_posts.py` (lines 115-120): fold `mergeStep`
over the candidates starting from the existing posts and a zero count. -/
def mergeLoop (existing candidates : List Post) : List Post × Nat :=
  candidates.foldl mergeStep (existing, 0)

/-- The whole merge operation of `sort_posts.py`: run the merge loop,
then sort the working sequence by date descending. `none` models the
script dying on an unparsable date before anything is written. -/
def merge (existing candidates : List Post) : Option (List Post × Nat) :=
  let wa := mergeLoop existing candidates
  (sortPosts wa.1).map (fun s => (s, wa.2))

/-- The catalog document: the post list plus any other top-level fields,
which the script passes through untouched. -/
structure Catalog where
  posts : List Post
  extra : List (String × String)
deriving DecidableEq, Repr

/-- One run of `sort_posts.py` on a catalog document with a given
candidate list: `none` means the script raised before the write-back, so
the persisted document is unmodified; `some` is the document written. -/
def runMergeScript (doc : Catalog) (newPosts : List Post) : Option Catalog :=
  (merge doc.posts newPosts).map (fun r => { doc with posts := r.1 })

/-- The remote document as seen by `sync_posts.py` after `response.json()`
succeeded: the serialized content that would be written to the local
file, and the value of the `posts` field when present (only its length
is ever used). -/
structure RemoteDoc where
  raw : String
  postsField : Option Nat
deriving DecidableEq, Repr

/-- Outcome of the remote fetch in `sync_posts.py`:
`requestError` covers network errors and `raise_for_status`
(`requests.exceptions.RequestException`), `jsonError` a response body
that is not valid JSON, and `parsed` a successfully decoded document. -/
inductive FetchOutcome where
  | requestError
  | jsonError
  | parsed (doc : RemoteDoc)
deriving DecidableEq, Repr

/-- One run of `sync_posts.py`: result is the final content of the local
file and the process exit code. On a request or JSON-decode error the
handlers print and `sys.exit(1)` before the file is opened. On a decoded
document the script first overwrites the local file (lines 20-21) and
only then evaluates `remote_posts['posts']` (line 23); when that lookup
raises, the generic handler exits 1 — after the write. -/
def sync (localDoc : String) (outcome : FetchOutcome) : String × Nat :=
  match outcome with
  | .requestError => (localDoc, 1)
  | .jsonError => (localDoc, 1)
  | .parsed doc =>
    match doc.postsField with
    | some _ => (doc.raw, 0)
    | none => (doc.raw, 1)

/-- Post `a` is dated no earlier than post `b`: both dates parse and the
parsed date of `b` is at most that of `a`. -/
def dateGE (a b : Post) : Prop :=
  ∃ da db, parseDate a.date = some da ∧ parseDate b.date = some db ∧
    Date.le db da

/-- Sample post: slug `a`, January 2026. -/
def pa : Post := ⟨"a", "2026-01-01", []⟩

/-- Sample post: slug `b`, February 2026. -/
def pb : Post := ⟨"b", "2026-02-01", []⟩

/-- Sample duplicate candidate: slug `a` again, different fields. -/
def pdup : Post := ⟨"a", "2099-01-01", [("title", "dup")]⟩

/-- Sample duplicate candidate with an unparsable date. -/
def pbad : Post := ⟨"a", "not-a-date", []⟩

/-- Sample post with an unparsable date. -/
def pbad2 : Post := ⟨"z", "nope", []⟩

/-- Sample post sharing its date with `ps2`. -/
def ps1 : Post := ⟨"s1", "2026-05-05", []⟩

/-- Sample post sharing its date with `ps1`. -/
def ps2 : Post := ⟨"s2", "2026-05-05", []⟩

/-- Undecorating the decorated list gives back the original list. -/
theorem decorate_map_snd : ∀ {l : List Post} {q : List (Date × Post)},
    decorate l = some q → q.map Prod.snd = l
  | [], q, h => by
    simp only [decorate, Option.some.injEq] at h
    simp [← h]
  | p :: ps, q, h => by
    simp only [decorate] at h
    cases hp : parseDate p.date with
    | none => rw [hp] at h; exact absurd h (by simp)
    | some d =>
      rw [hp] at h
      rcases Option.map_eq_some'.mp h with ⟨t, ht, rfl⟩
      simp [decorate_map_snd ht]

/-- Every decorated pair carries the parse of its own post's date. -/
theorem decorate_mem_parse : ∀ {l : List Post} {q : List (Date × Post)},
    decorate l = some q → ∀ x ∈ q, parseDate x.2.date = some x.1
  | [], q, h => by
    simp only [decorate, Option.some.injEq] at h
    simp [← h]
  | p :: ps, q, h => by
    simp only [decorate] at h
    cases hp : parseDate p.date with
    | none => rw [hp] at h; exact absurd h (by simp)
    | some d =>
      rw [hp] at h
      rcases Option.map_eq_some'.mp h with ⟨t, ht, rfl⟩
      intro x hx
      rcases List.mem_cons.mp hx with hx | hx
      · subst hx; exact hp
      · exact decorate_mem_parse ht x hx

/-- A single unparsable date anywhere in the list makes `decorate` fail. -/
theorem decorate_eq_none : ∀ {l : List Post} {p : Post},
    p ∈ l → parseDate p.date = none → decorate l = none
  | a :: as, p, hp, hbad => by
    rcases List.mem_cons.mp hp with h | h
    · subst h
      simp [decorate, hbad]
    · cases ha : parseDate a.date with
      | none => simp [decorate, ha]
      | some d => simp [decorate, ha, decorate_eq_none h hbad]

/-- A list of pairs each carrying the parse of its post decorates to
itself. -/
theorem decorate_of_parsed : ∀ {q : List (Date × Post)},
    (∀ x ∈ q, parseDate x.2.date = some x.1) →
    decorate (q.map Prod.snd) = some q
  | [], _ => by simp [decorate]
  | x :: t, h => by
    have hx : parseDate x.2.date = some x.1 := h x (by simp)
    have ht : decorate (t.map Prod.snd) = some t :=
      decorate_of_parsed (fun y hy => h y (List.mem_cons_of_mem _ hy))
    simp [decorate, hx, ht]

/-- Unpack a successful merge into its decorated working list. -/
theorem merge_eq_some {E C : List Post} {out : List Post × Nat}
    (h : merge E C = some out) :
    ∃ q, decorate (mergeLoop E C).1 = some q ∧
      out = ((q.insertionSort pairDesc).map Prod.snd, (mergeLoop E C).2) := by
  unfold merge sortPosts at h
  rcases Option.map_eq_some'.mp h with ⟨s, hs, hout⟩
  rcases Option.map_eq_some'.mp hs with ⟨q, hq, hsq⟩
  exact ⟨q, hq, by rw [← hout, ← hsq]⟩

/-- The merge loop only ever appends to the working list. -/
theorem foldl_mergeStep_append : ∀ (C : List Post) (acc : List Post × Nat),
    ∃ A, (C.foldl mergeStep acc).1 = acc.1 ++ A
  | [], acc => ⟨[], by simp⟩
  | c :: C, acc => by
    rw [List.foldl_cons]
    cases hb : acc.1.any (fun p => p.slug == c.slug) with
    | true => simpa [mergeStep, hb] using foldl_mergeStep_append C acc
    | false =>
      obtain ⟨A, hA⟩ := foldl_mergeStep_append C (acc.1 ++ [c], acc.2 + 1)
      refine ⟨c :: A, ?_⟩
      simp only [mergeStep, hb]
      simp only [Bool.false_eq_true, if_false] at hA ⊢
      rw [hA, List.append_assoc, List.singleton_append]

/-- Slugs present in the working list stay present through the loop. -/
theorem foldl_mergeStep_slug_mono {C : List Post} {acc : List Post × Nat}
    {s : String} (h : s ∈ acc.1.map Post.slug) :
    s ∈ (C.foldl mergeStep acc).1.map Post.slug := by
  obtain ⟨A, hA⟩ := foldl_mergeStep_append C acc
  rw [hA, List.map_append]
  exact List.mem_append_left _ h

/-- After the loop, every candidate's slug occurs in the working list:
a candidate is either appended, or skipped because its slug was already
there. -/
theorem foldl_mergeStep_mem_slugs : ∀ {C : List Post} (acc : List Post × Nat)
    {c : Post}, c ∈ C → c.slug ∈ (C.foldl mergeStep acc).1.map Post.slug
  | a :: C, acc, c, hc => by
    rw [List.foldl_cons]
    rcases List.mem_cons.mp hc with h | h
    · subst h
      cases hb : acc.1.any (fun p => p.slug == c.slug) with
      | true =>
        rcases List.any_eq_true.mp hb with ⟨p, hp, hps⟩
        have hs : c.slug ∈ acc.1.map Post.slug :=
          List.mem_map.mpr ⟨p, hp, beq_iff_eq.mp hps⟩
        have hstep : mergeStep acc c = acc := by simp [mergeStep, hb]
        rw [hstep]
        exact foldl_mergeStep_slug_mono hs
      | false =>
        have hstep : mergeStep acc c = (acc.1 ++ [c], acc.2 + 1) := by
          simp [mergeStep, hb]
        rw [hstep]
        exact foldl_mergeStep_slug_mono (by simp)
    · exact foldl_mergeStep_mem_slugs (mergeStep acc a) h

/-- The loop preserves distinctness of slugs in the working list. -/
theorem foldl_mergeStep_nodup : ∀ {C : List Post} {acc : List Post × Nat},
    (acc.1.map Post.slug).Nodup → ((C.foldl mergeStep acc).1.map Post.slug).Nodup
  | [], _, h => h
  | c :: C, acc, h => by
    rw [List.foldl_cons]
    cases hb : acc.1.any (fun p => p.slug == c.slug) with
    | true =>
      have hstep : mergeStep acc c = acc := by simp [mergeStep, hb]
      rw [hstep]
      exact foldl_mergeStep_nodup h
    | false =>
      have hstep : mergeStep acc c = (acc.1 ++ [c], acc.2 + 1) := by
        simp [mergeStep, hb]
      rw [hstep]
      refine foldl_mergeStep_nodup ?_
      have hnotin : c.slug ∉ acc.1.map Post.slug := by
        intro hmem
        rcases List.mem_map.mp hmem with ⟨p, hp, hps⟩
        have : acc.1.any (fun p => p.slug == c.slug) = true :=
          List.any_eq_true.mpr ⟨p, hp, beq_iff_eq.mpr hps⟩
        rw [this] at hb
        exact Bool.true_eq_false.mp hb
      simp only [List.map_append, List.map_cons, List.map_nil]
      exact List.Nodup.append h (List.nodup_singleton _)
        (by simpa [List.disjoint_singleton] using hnotin)

/-- Length bookkeeping: the working list grows by exactly the number of
accepted candidates. -/
theorem foldl_mergeStep_length : ∀ (C : List Post) (acc : List Post × Nat),
    (C.foldl mergeStep acc).1.length + acc.2 =
      acc.1.length + (C.foldl mergeStep acc).2
  | [], _ => rfl
  | c :: C, acc => by
    rw [List.foldl_cons]
    cases hb : acc.1.any (fun p => p.slug == c.slug) with
    | true =>
      have hstep : mergeStep acc c = acc := by simp [mergeStep, hb]
      rw [hstep]
      exact foldl_mergeStep_length C acc
    | false =>
      have hstep : mergeStep acc c = (acc.1 ++ [c], acc.2 + 1) := by
        simp [mergeStep, hb]
      rw [hstep]
      have := foldl_mergeStep_length C (acc.1 ++ [c], acc.2 + 1)
      simp only [List.length_append, List.length_cons, List.length_nil] at this ⊢
      omega

/-- The counter grows by at most the number of candidates processed. -/
theorem foldl_mergeStep_count_le : ∀ (C : List Post) (acc : List Post × Nat),
    (C.foldl mergeStep acc).2 ≤ acc.2 + C.length
  | [], _ => Nat.le_refl _
  | c :: C, acc => by
    rw [List.foldl_cons]
    cases hb : acc.1.any (fun p => p.slug == c.slug) with
    | true =>
      have hstep : mergeStep acc c = acc := by simp [mergeStep, hb]
      rw [hstep]
      have := foldl_mergeStep_count_le C acc
      simp only [List.length_cons]
      omega
    | false =>
      have hstep : mergeStep acc c = (acc.1 ++ [c], acc.2 + 1) := by
        simp [mergeStep, hb]
      rw [hstep]
      have := foldl_mergeStep_count_le C (acc.1 ++ [c], acc.2 + 1)
      simp only [List.length_cons] at this ⊢
      omega

/-- When every candidate's slug is already in the working list, the loop
does nothing at all. -/
theorem mergeLoop_skip_all : ∀ {C : List Post} {M : List Post},
    (∀ c ∈ C, c.slug ∈ M.map Post.slug) → mergeLoop M C = (M, 0)
  | [], _, _ => rfl
  | c :: C, M, h => by
    have hc : c.slug ∈ M.map Post.slug := h c (by simp)
    rcases List.mem_map.mp hc with ⟨p, hp, hps⟩
    have hb : M.any (fun p => p.slug == c.slug) = true :=
      List.any_eq_true.mpr ⟨p, hp, beq_iff_eq.mpr hps⟩
    have hstep : mergeStep (M, 0) c = (M, 0) := by simp [mergeStep, hb]
    show (c :: C).foldl mergeStep (M, 0) = (M, 0)
    rw [List.foldl_cons, hstep]
    exact mergeLoop_skip_all (fun d hd => h d (List.mem_cons_of_mem _ hd))

/-- Moving a fresh slug from the candidate side of a set difference to
the working side shifts the cardinality by one. -/
theorem card_insert_sdiff (A B : Finset String) (s : String) (hs : s ∉ B) :
    (insert s A \ B).card = (A \ insert s B).card + 1 := by
  by_cases hA : s ∈ A
  · rw [Finset.insert_eq_self.mpr hA, Finset.sdiff_insert]
    have hmem : s ∈ A \ B := Finset.mem_sdiff.mpr ⟨hA, hs⟩
    rw [Finset.card_erase_of_mem hmem]
    have hpos : 0 < (A \ B).card := Finset.card_pos.mpr ⟨s, hmem⟩
    omega
  · rw [Finset.insert_sdiff_of_not_mem A hs]
    have h2 : A \ insert s B = A \ B := by
      ext x
      simp only [Finset.mem_sdiff, Finset.mem_insert]
      constructor
      · rintro ⟨hxA, hx⟩
        exact ⟨hxA, fun hxB => hx (Or.inr hxB)⟩
      · rintro ⟨hxA, hxB⟩
        refine ⟨hxA, ?_⟩
        rintro (rfl | hx)
        · exact hA hxA
        · exact hxB hx
    have h3 : s ∉ A \ B := fun h => hA (Finset.mem_sdiff.mp h).1
    rw [h2, Finset.card_insert_of_not_mem h3]

/-- The loop counter counts exactly the distinct candidate slugs that are
not already in the working list. -/
theorem foldl_mergeStep_count : ∀ (C : List Post) (W : List Post) (k : Nat),
    (C.foldl mergeStep (W, k)).2 =
      k + ((C.map Post.slug).toFinset \ (W.map Post.slug).toFinset).card
  | [], W, k => by simp
  | c :: C, W, k => by
    rw [List.foldl_cons]
    cases hb : W.any (fun p => p.slug == c.slug) with
    | true =>
      have hstep : mergeStep (W, k) c = (W, k) := by simp [mergeStep, hb]
      rw [hstep, foldl_mergeStep_count C W k]
      rcases List.any_eq_true.mp hb with ⟨p, hp, hps⟩
      have hcs : c.slug ∈ (W.map Post.slug).toFinset :=
        List.mem_toFinset.mpr (List.mem_map.mpr ⟨p, hp, beq_iff_eq.mp hps⟩)
      rw [List.map_cons, List.toFinset_cons, Finset.insert_sdiff_of_mem _ hcs]
    | false =>
      have hstep : mergeStep (W, k) c = (W ++ [c], k + 1) := by
        simp [mergeStep, hb]
      rw [hstep, foldl_mergeStep_count C (W ++ [c]) (k + 1)]
      have hcs : c.slug ∉ (W.map Post.slug).toFinset := by
        intro hmem
        rcases List.mem_map.mp (List.mem_toFinset.mp hmem) with ⟨p, hp, hps⟩
        have : W.any (fun p => p.slug == c.slug) = true :=
          List.any_eq_true.mpr ⟨p, hp, beq_iff_eq.mpr hps⟩
        rw [this] at hb
        exact Bool.true_eq_false.mp hb
      have happ : ((W ++ [c]).map Post.slug).toFinset =
          insert c.slug (W.map Post.slug).toFinset := by
        simp only [List.map_append, List.toFinset_append, List.map_cons,
          List.map_nil, List.toFinset_cons, List.toFinset_nil]
        ext x
        simp only [Finset.mem_union, Finset.mem_insert, Finset.not_mem_empty,
          or_false, List.mem_toFinset]
        tauto
      rw [happ, List.map_cons, List.toFinset_cons,
        card_insert_sdiff _ _ _ hcs]
      omega

/-- Date comparison is reflexive. -/
theorem Date.le_refl (d : Date) : Date.le d d := by
  unfold Date.le
  omega

/-- The sorted output is a permutation of the working list. -/
theorem merge_output_perm {E C : List Post} {q : List (Date × Post)}
    (hq : decorate (mergeLoop E C).1 = some q) :
    List.Perm ((q.insertionSort pairDesc).map Prod.snd) (mergeLoop E C).1 := by
  have h1 : List.Perm (q.insertionSort pairDesc) q :=
    List.perm_insertionSort pairDesc q
  have h2 := h1.map Prod.snd
  rw [decorate_map_snd hq] at h2
  exact h2

/-- C1: for every existing sequence E and candidate sequence C on which
merge succeeds, the output is sorted by date descending over the whole
sequence: for all adjacent pairs (a, b) of the output, the date of `a`
is at least the date of `b`. -/
theorem merge_output_sorted_desc (E C : List Post) (out : List Post × Nat)
    (h : merge E C = some out) : List.Chain' dateGE out.1 := by
  rcases merge_eq_some h with ⟨q, hq, hout⟩
  subst hout
  have hsorted : List.Sorted pairDesc (q.insertionSort pairDesc) :=
    List.sorted_insertionSort pairDesc q
  have hinv : ∀ x ∈ q.insertionSort pairDesc, parseDate x.2.date = some x.1 :=
    fun x hx => decorate_mem_parse hq x ((List.mem_insertionSort pairDesc).mp hx)
  have hpw : List.Pairwise (fun x y : Date × Post => dateGE x.2 y.2)
      (q.insertionSort pairDesc) := by
    refine List.Pairwise.imp_of_mem ?_ hsorted
    intro a b ha hb hr
    exact ⟨a.1, b.1, hinv a ha, hinv b hb, hr⟩
  exact (List.pairwise_map.mpr hpw).chain'

/-- C1 witness: merging two posts into an empty catalog yields them
newest first. -/
theorem merge_output_sorted_desc_witness : List.Chain' dateGE [pb, pa] :=
  merge_output_sorted_desc [] [pa, pb] ([pb, pa], 2) rfl

/-- C2: when the existing sequence has pairwise distinct slugs, the
merged output has no duplicate slugs: the set of slug values has the
same cardinality as the output length. -/
theorem merge_no_duplicate_slugs (E C : List Post) (out : List Post × Nat)
    (hE : (E.map Post.slug).Nodup) (h : merge E C = some out) :
    (out.1.map Post.slug).toFinset.card = out.1.length := by
  rcases merge_eq_some h with ⟨q, hq, hout⟩
  subst hout
  have hperm := merge_output_perm hq
  have hw : ((C.foldl mergeStep (E, 0)).1.map Post.slug).Nodup :=
    foldl_mergeStep_nodup hE
  have hnd : (((q.insertionSort pairDesc).map Prod.snd).map Post.slug).Nodup :=
    (hperm.map Post.slug).nodup_iff.mpr hw
  show (((q.insertionSort pairDesc).map Prod.snd).map Post.slug).toFinset.card =
    ((q.insertionSort pairDesc).map Prod.snd).length
  rw [List.toFinset_card_of_nodup hnd, List.length_map]

/-- C2 witness: a duplicate candidate and a fresh one against a
one-post catalog. -/
theorem merge_no_duplicate_slugs_witness :
    (([pb, pa].map Post.slug).toFinset).card = ([pb, pa] : List Post).length :=
  merge_no_duplicate_slugs [pa] [pdup, pb] ([pb, pa], 1) (by decide) rfl

/-- C5: every record of the existing sequence appears unchanged, by
value, in the merged output. -/
theorem merge_preserves_existing (E C : List Post) (out : List Post × Nat)
    (h : merge E C = some out) : ∀ p ∈ E, p ∈ out.1 := by
  rcases merge_eq_some h with ⟨q, hq, hout⟩
  subst hout
  intro p hp
  obtain ⟨A, hA⟩ := foldl_mergeStep_append C (E, 0)
  have hw : p ∈ (mergeLoop E C).1 := by
    show p ∈ (C.foldl mergeStep (E, 0)).1
    rw [hA]
    exact List.mem_append_left _ hp
  exact (merge_output_perm hq).mem_iff.mpr hw

/-- C5 witness: the existing post `pa` survives a merge by value. -/
theorem merge_preserves_existing_witness : pa ∈ ([pb, pa] : List Post) :=
  merge_preserves_existing [pa] [pb] ([pb, pa], 1) rfl pa (by decide)

/-- C6: the returned count equals the number of distinct candidate slugs
that are not already present among the existing slugs. -/
theorem merge_added_count (E C : List Post) (out : List Post × Nat)
    (h : merge E C = some out) :
    out.2 = ((C.map Post.slug).toFinset \ (E.map Post.slug).toFinset).card := by
  rcases merge_eq_some h with ⟨q, hq, hout⟩
  subst hout
  show (C.foldl mergeStep (E, 0)).2 = _
  rw [foldl_mergeStep_count C E 0, Nat.zero_add]

/-- C6 witness: of two candidates, one duplicate and one fresh, exactly
one distinct new slug is counted. -/
theorem merge_added_count_witness :
    (1 : Nat) =
      (([pdup, pb].map Post.slug).toFinset \ ([pa].map Post.slug).toFinset).card :=
  merge_added_count [pa] [pdup, pb] ([pb, pa], 1) rfl

/-- C10: the output length is the existing length plus the count of
added records, the count never exceeds the number of candidates, and the
output is never shorter than the existing sequence. -/
theorem merge_length_arith (E C : List Post) (out : List Post × Nat)
    (h : merge E C = some out) :
    out.1.length = E.length + out.2 ∧ out.2 ≤ C.length ∧
      E.length ≤ out.1.length := by
  rcases merge_eq_some h with ⟨q, hq, hout⟩
  subst hout
  have hlen : (C.foldl mergeStep (E, 0)).1.length + 0 =
      E.length + (C.foldl mergeStep (E, 0)).2 := foldl_mergeStep_length C (E, 0)
  have hle : (C.foldl mergeStep (E, 0)).2 ≤ 0 + C.length :=
    foldl_mergeStep_count_le C (E, 0)
  have h2 := congrArg List.length (decorate_map_snd hq)
  rw [List.length_map] at h2
  have h2' : q.length = (C.foldl mergeStep (E, 0)).1.length := h2
  have h1 : ((q.insertionSort pairDesc).map Prod.snd).length = q.length := by
    rw [List.length_map, List.length_insertionSort]
  refine ⟨?_, ?_, ?_⟩
  · show ((q.insertionSort pairDesc).map Prod.snd).length =
      E.length + (C.foldl mergeStep (E, 0)).2
    omega
  · show (C.foldl mergeStep (E, 0)).2 ≤ C.length
    omega
  · show E.length ≤ ((q.insertionSort pairDesc).map Prod.snd).length
    omega

/-- C3 counterexample: the candidate `pbad` has an unparsable date, yet
because its slug duplicates an existing one it is skipped before its date
is ever parsed, so the merge succeeds and the catalog is written. -/
theorem malformed_date_counterexample :
    pbad ∈ [pbad] ∧ parseDate pbad.date = none ∧
    merge [pa] [pbad] = some ([pa], 0) ∧
    runMergeScript ⟨[pa], []⟩ [pbad] = some ⟨[pa], []⟩ :=
  ⟨by decide, rfl, rfl, rfl⟩

/-- C3 amended: if any record of the working sequence — that is, any
existing record, or any accepted candidate — has a date that does not
parse, the merge fails and no output catalog is written. (Every existing
record is in the working sequence; a duplicate-slug candidate is skipped
before its date is examined.) -/
theorem malformed_date_aborts (doc : Catalog) (C : List Post)
    (h : ∃ p ∈ (mergeLoop doc.posts C).1, parseDate p.date = none) :
    (∀ p ∈ doc.posts, p ∈ (mergeLoop doc.posts C).1) ∧
    merge doc.posts C = none ∧ runMergeScript doc C = none := by
  have hsub : ∀ p ∈ doc.posts, p ∈ (mergeLoop doc.posts C).1 := by
    intro p hp
    obtain ⟨A, hA⟩ := foldl_mergeStep_append C (doc.posts, 0)
    show p ∈ (C.foldl mergeStep (doc.posts, 0)).1
    rw [hA]
    exact List.mem_append_left _ hp
  rcases h with ⟨p, hp, hbad⟩
  have hdec : decorate (mergeLoop doc.posts C).1 = none :=
    decorate_eq_none hp hbad
  have hm : merge doc.posts C = none := by
    simp [merge, sortPosts, hdec]
  refine ⟨hsub, hm, ?_⟩
  simp [runMergeScript, hm]

/-- C3 witness: an existing record with a malformed date aborts the run. -/
theorem malformed_date_aborts_witness :
    (∀ p ∈ [pbad2], p ∈ (mergeLoop [pbad2] [pb]).1) ∧
    merge [pbad2] [pb] = none ∧
    runMergeScript ⟨[pbad2], []⟩ [pb] = none :=
  malformed_date_aborts ⟨[pbad2], []⟩ [pb] (by decide)

/-- C4 counterexample: a remote response that is valid JSON but lacks the
`posts` field exits with code 1, yet the local document has already been
overwritten with the remote content — it is not left unmodified. -/
theorem sync_shape_error_counterexample :
    sync "old" (FetchOutcome.parsed ⟨"new", none⟩) = ("new", 1) ∧
    ("new" : String) ≠ "old" :=
  ⟨rfl, by decide⟩

/-- C4 amended: a network or HTTP error, and a response body that is not
valid JSON, abort the sync with exit code 1 and leave the local document
unmodified; a decoded document missing the `posts` field also exits with
code 1, but only after the local document has been overwritten with the
remote content. -/
theorem sync_failure_handling (localDoc : String) (outcome : FetchOutcome) :
    ((outcome = FetchOutcome.requestError ∨ outcome = FetchOutcome.jsonError) →
      sync localDoc outcome = (localDoc, 1)) ∧
    (∀ d : RemoteDoc, outcome = FetchOutcome.parsed d → d.postsField = none →
      sync localDoc outcome = (d.raw, 1)) := by
  constructor
  · rintro (rfl | rfl) <;> rfl
  · rintro d rfl hnone
    simp [sync, hnone]

/-- C4 witness: a request error leaves the local document alone and
exits 1. -/
theorem sync_failure_handling_witness :
    sync "old" FetchOutcome.requestError = ("old", 1) :=
  (sync_failure_handling "old" FetchOutcome.requestError).1 (Or.inl rfl)

/-- C8: a candidate whose slug is already in the working list built from
the existing records and the candidates before it is skipped silently:
the loop state and the whole merge result are exactly as if the
candidate had not been supplied, so it cannot raise, cannot overwrite
any field, and contributes zero to the count. -/
theorem merge_skips_duplicate (E Cl Cr : List Post) (c : Post)
    (h : c.slug ∈ (mergeLoop E Cl).1.map Post.slug) :
    mergeLoop E (Cl ++ c :: Cr) = mergeLoop E (Cl ++ Cr) ∧
    merge E (Cl ++ c :: Cr) = merge E (Cl ++ Cr) := by
  have hloop : mergeLoop E (Cl ++ c :: Cr) = mergeLoop E (Cl ++ Cr) := by
    show (Cl ++ c :: Cr).foldl mergeStep (E, 0) =
      (Cl ++ Cr).foldl mergeStep (E, 0)
    rw [List.foldl_append, List.foldl_append, List.foldl_cons]
    rcases List.mem_map.mp h with ⟨p, hp, hps⟩
    have hb : (Cl.foldl mergeStep (E, 0)).1.any (fun x => x.slug == c.slug) = true :=
      List.any_eq_true.mpr ⟨p, hp, beq_iff_eq.mpr hps⟩
    have hstep : mergeStep (Cl.foldl mergeStep (E, 0)) c =
        Cl.foldl mergeStep (E, 0) := by
      simp [mergeStep, hb]
    rw [hstep]
  refine ⟨hloop, ?_⟩
  unfold merge
  rw [hloop]

/-- C8 witness: the duplicate candidate `pdup` leaves the merge of `pb`
into the one-post catalog entirely unchanged. -/
theorem merge_skips_duplicate_witness :
    mergeLoop [pa] [pdup, pb] = mergeLoop [pa] [pb] ∧
    merge [pa] [pdup, pb] = merge [pa] [pb] :=
  merge_skips_duplicate [pa] [] [pb] pdup (by decide)

/-- C7: merge is idempotent with respect to a fixed candidate list:
re-merging the same candidates into a successful result adds nothing and
returns the same sorted sequence. -/
theorem merge_idempotent (E C : List Post) (out : List Post × Nat)
    (h : merge E C = some out) : merge out.1 C = some (out.1, 0) := by
  rcases merge_eq_some h with ⟨q, hq, hout⟩
  subst hout
  have hinv : ∀ x ∈ q.insertionSort pairDesc, parseDate x.2.date = some x.1 :=
    fun x hx => decorate_mem_parse hq x ((List.mem_insertionSort pairDesc).mp hx)
  have hdecM : decorate ((q.insertionSort pairDesc).map Prod.snd) =
      some (q.insertionSort pairDesc) := decorate_of_parsed hinv
  have hperm := merge_output_perm hq
  have hall : ∀ c ∈ C,
      c.slug ∈ ((q.insertionSort pairDesc).map Prod.snd).map Post.slug := by
    intro c hc
    have h1 : c.slug ∈ (mergeLoop E C).1.map Post.slug :=
      foldl_mergeStep_mem_slugs (E, 0) hc
    exact ((hperm.map Post.slug).mem_iff).mpr h1
  have hloop : mergeLoop ((q.insertionSort pairDesc).map Prod.snd) C =
      ((q.insertionSort pairDesc).map Prod.snd, 0) := mergeLoop_skip_all hall
  have hsorted : List.Sorted pairDesc (q.insertionSort pairDesc) :=
    List.sorted_insertionSort pairDesc q
  have hssort : (q.insertionSort pairDesc).insertionSort pairDesc =
      q.insertionSort pairDesc := hsorted.insertionSort_eq
  show merge ((q.insertionSort pairDesc).map Prod.snd) C =
    some ((q.insertionSort pairDesc).map Prod.snd, 0)
  unfold merge sortPosts
  rw [hloop]
  simp only [Option.map_map]
  rw [hdecM]
  simp only [Option.map_some', Function.comp]
  rw [hssort]

/-- C7 witness: re-merging the two candidates into the result of the
first merge returns the same sequence with a zero count. -/
theorem merge_idempotent_witness :
    merge [pb, pa] [pa, pb] = some (([pb, pa] : List Post), 0) :=
  merge_idempotent [] [pa, pb] ([pb, pa], 2) rfl

/-- C9: the sort performed by merge is stable: for every parsed date
value, the records carrying that date appear in the sorted output in
exactly the order they had in the working sequence (existing records
followed by accepted candidates in candidate order). -/
theorem merge_sort_stable (E C : List Post) (out : List Post × Nat)
    (h : merge E C = some out) (d : Date) :
    out.1.filter (fun p => decide (parseDate p.date = some d)) =
      (mergeLoop E C).1.filter (fun p => decide (parseDate p.date = some d)) := by
  rcases merge_eq_some h with ⟨q, hq, hout⟩
  subst hout
  have hqinv : ∀ x ∈ q, parseDate x.2.date = some x.1 := decorate_mem_parse hq
  have hq'inv : ∀ x ∈ q.insertionSort pairDesc, parseDate x.2.date = some x.1 :=
    fun x hx => hqinv x ((List.mem_insertionSort pairDesc).mp hx)
  have hpw : (q.filter (fun x => decide (x.1 = d))).Pairwise pairDesc := by
    apply List.pairwise_of_forall_mem_list
    intro a ha b hb
    have ha' : a.1 = d := by
      have h0 := (List.mem_filter.mp ha).2
      simpa using h0
    have hb' : b.1 = d := by
      have h0 := (List.mem_filter.mp hb).2
      simpa using h0
    show Date.le b.1 a.1
    rw [ha', hb']
    exact Date.le_refl d
  have hsub : List.Sublist (q.filter (fun x => decide (x.1 = d)))
      (q.insertionSort pairDesc) :=
    List.sublist_insertionSort hpw (List.filter_sublist q)
  have hsub2 : List.Sublist (q.filter (fun x => decide (x.1 = d)))
      ((q.insertionSort pairDesc).filter (fun x => decide (x.1 = d))) := by
    have h1 := hsub.filter (fun x => decide (x.1 = d))
    have h2 : (q.filter (fun x => decide (x.1 = d))).filter
        (fun x => decide (x.1 = d)) = q.filter (fun x => decide (x.1 = d)) :=
      List.filter_eq_self.mpr (fun a ha => (List.mem_filter.mp ha).2)
    rwa [h2] at h1
  have hpermfil : List.Perm
      ((q.insertionSort pairDesc).filter (fun x => decide (x.1 = d)))
      (q.filter (fun x => decide (x.1 = d))) :=
    (List.perm_insertionSort pairDesc q).filter _
  have heq : q.filter (fun x => decide (x.1 = d)) =
      (q.insertionSort pairDesc).filter (fun x => decide (x.1 = d)) :=
    hsub2.eq_of_length hpermfil.length_eq.symm
  show ((q.insertionSort pairDesc).map Prod.snd).filter
      (fun p => decide (parseDate p.date = some d)) =
    (mergeLoop E C).1.filter (fun p => decide (parseDate p.date = some d))
  rw [← decorate_map_snd hq, List.filter_map, List.filter_map]
  have hc1 : (q.insertionSort pairDesc).filter
      ((fun p => decide (parseDate p.date = some d)) ∘ Prod.snd) =
      (q.insertionSort pairDesc).filter (fun x => decide (x.1 = d)) := by
    apply List.filter_congr
    intro x hx
    show decide (parseDate x.2.date = some d) = decide (x.1 = d)
    rw [hq'inv x hx]
    exact decide_eq_decide.mpr (by simp)
  have hc2 : q.filter ((fun p => decide (parseDate p.date = some d)) ∘ Prod.snd) =
      q.filter (fun x => decide (x.1 = d)) := by
    apply List.filter_congr
    intro x hx
    show decide (parseDate x.2.date = some d) = decide (x.1 = d)
    rw [hqinv x hx]
    exact decide_eq_decide.mpr (by simp)
  rw [hc1, hc2, ← heq]

/-- C9 witness: two posts sharing the date 2026-05-05 keep their
relative order when the sort moves them past an older post. -/
theorem merge_sort_stable_witness :
    ([ps1, ps2, pa] : List Post).filter
        (fun p => decide (parseDate p.date = some ⟨2026, 5, 5⟩)) =
      ([pa, ps1, ps2] : List Post).filter
        (fun p => decide (parseDate p.date = some ⟨2026, 5, 5⟩)) :=
  merge_sort_stable [pa, ps1, ps2] [] ([ps1, ps2, pa], 0) rfl ⟨2026, 5, 5⟩

/-- C10 witness: one fresh candidate grows a one-post catalog to two. -/
theorem merge_length_arith_witness :
    ([pb, pa] : List Post).length = ([pa] : List Post).length + 1 ∧
      1 ≤ ([pb] : List Post).length ∧
      ([pa] : List Post).length ≤ ([pb, pa] : List Post).length :=
  merge_length_arith [pa] [pb] ([pb, pa], 1) rfl
